import Mathlib

/-!
Shallow embedding of the staging-index core of the rug repository
(src/src/index.rs) together with the argument handling of the branch
command (src/src/commands/branch.rs).  Bytes are modelled as natural
numbers below 256, byte strings as lists of naturals, machine integers
as Nat / Int with explicit reduction modulo two to the power of the
width.  Rust panics and returned io errors are both modelled as
constructors of one error type; the doc comment of each constructor
records which of the two it stands for in the source.
-/

set_option maxRecDepth 100000

namespace Rug

/-- Decidable equality of Except values, needed to evaluate the
embedded fallible operations on concrete inputs. -/
instance {ε α} [DecidableEq ε] [DecidableEq α] : DecidableEq (Except ε α) := fun x y =>
  match x, y with
  | .ok a, .ok b =>
    if h : a = b then isTrue (by rw [h]) else isFalse (by simp [h])
  | .error a, .error b =>
    if h : a = b then isTrue (by rw [h]) else isFalse (by simp [h])
  | .ok _, .error _ => isFalse (by simp)
  | .error _, .ok _ => isFalse (by simp)

/-- Truncation to 32 bits: models the Rust cast `as u32` on a value
already known to be a natural number. -/
def w32 (n : Nat) : Nat := n % 4294967296

/-- The Rust cast `as u32` applied to an i64 value: the low 32 bits,
always a non-negative number below 2 ^ 32. -/
def i64AsU32 (x : Int) : Nat := (x % 4294967296).toNat

/-- Big-endian byte rendering of a 32-bit value,
models `u32::to_be_bytes`. -/
def be32 (n : Nat) : List Nat :=
  [n / 16777216 % 256, n / 65536 % 256, n / 256 % 256, n % 256]

/-- Big-endian byte rendering of a 16-bit value,
models `u16::to_be_bytes`. -/
def be16 (n : Nat) : List Nat := [n / 256 % 256, n % 256]

/-- Big-endian byte rendering of a 64-bit value (used by the SHA-1
length padding). -/
def be64 (n : Nat) : List Nat :=
  [n / 72057594037927936 % 256, n / 281474976710656 % 256,
   n / 1099511627776 % 256, n / 4294967296 % 256,
   n / 16777216 % 256, n / 65536 % 256, n / 256 % 256, n % 256]

/-- Reads a big-endian 32-bit value from a byte list, models
`u32::from_be_bytes`. -/
def fromBe32 (l : List Nat) : Nat := l.foldl (fun acc b => acc * 256 + b) 0

/-- Reads a big-endian 16-bit value from a byte list, models
`u16::from_be_bytes`. -/
def fromBe16 (l : List Nat) : Nat := l.foldl (fun acc b => acc * 256 + b) 0

/-- ASCII code of the lowercase hex digit for a value below 16. -/
def hexDigitChar (n : Nat) : Nat := if n < 10 then 48 + n else 87 + n

/-- Modelled from the spec: util.rs is not under src/; the spec
describes object ids as 40 lowercase hex characters for 20 raw bytes
(section 3, ObjectId).  encodeHex renders each byte as two lowercase
hex digits, as the util function encode_hex does at every call site in
index.rs. -/
def encodeHex (l : List Nat) : List Nat :=
  (l.map (fun b => [hexDigitChar (b / 16), hexDigitChar (b % 16)])).flatten

/-- Value of one hex digit character (accepting both cases), none on a
non-hex character. -/
def hexDigitVal (c : Nat) : Option Nat :=
  if 48 ≤ c ∧ c ≤ 57 then some (c - 48)
  else if 97 ≤ c ∧ c ≤ 102 then some (c - 87)
  else if 65 ≤ c ∧ c ≤ 70 then some (c - 55)
  else none

/-- Modelled from the spec: util.rs is not under src/; decodeHex is the
inverse direction of the hex codec, pairing characters into bytes and
failing on a malformed string, as the util function decode_hex does at
its call sites in index.rs. -/
def decodeHex : List Nat → Option (List Nat)
  | [] => some []
  | [_] => none
  | c1 :: c2 :: rest =>
    match hexDigitVal c1, hexDigitVal c2, decodeHex rest with
    | some h, some l, some r => some ((16 * h + l) :: r)
    | _, _, _ => none

/-- Strict lexicographic order on byte lists: the ordering of Rust
String keys inside the BTreeMap of Index. -/
def lexLt : List Nat → List Nat → Bool
  | [], [] => false
  | [], _ :: _ => true
  | _ :: _, [] => false
  | a :: as_, b :: bs => if a < b then true else if b < a then false else lexLt as_ bs

/-! ## SHA-1 (the digest of the crypto crate used by index.rs) -/

/-- 32-bit left rotation on a value below 2 ^ 32. -/
def rotl (s x : Nat) : Nat := w32 ((x <<< s) ||| (x >>> (32 - s)))

/-- SHA-1 message padding: a 0x80 byte, zeros to 56 mod 64, then the
bit length as a big-endian 64-bit value. -/
def sha1Pad (m : List Nat) : List Nat :=
  m ++ [128] ++ List.replicate ((119 - m.length % 64) % 64) 0 ++ be64 (8 * m.length)

/-- Groups a byte list into big-endian 32-bit words. -/
def chunkWords : List Nat → List Nat
  | a :: b :: c :: d :: rest => (((a * 256 + b) * 256 + c) * 256 + d) :: chunkWords rest
  | _ => []

/-- Appends the next SHA-1 schedule word W t from the last 16 words. -/
def sha1ExtendStep (ws : List Nat) : List Nat :=
  let n := ws.length
  ws ++ [rotl 1 (ws.getD (n - 3) 0 ^^^ ws.getD (n - 8) 0 ^^^
                 ws.getD (n - 14) 0 ^^^ ws.getD (n - 16) 0)]

/-- Iterates the schedule extension. -/
def sha1ExtendN : Nat → List Nat → List Nat
  | 0, ws => ws
  | n + 1, ws => sha1ExtendN n (sha1ExtendStep ws)

/-- The SHA-1 round function for round t. -/
def sha1F (t b c d : Nat) : Nat :=
  if t < 20 then (b &&& c) ||| ((4294967295 ^^^ b) &&& d)
  else if t < 40 then b ^^^ c ^^^ d
  else if t < 60 then (b &&& c) ||| (b &&& d) ||| (c &&& d)
  else b ^^^ c ^^^ d

/-- The SHA-1 round constant for round t. -/
def sha1K (t : Nat) : Nat :=
  if t < 20 then 1518500249
  else if t < 40 then 1859775393
  else if t < 60 then 2400959708
  else 3395469782

/-- One SHA-1 round on the five-word state. -/
def sha1Round (st : Nat × Nat × Nat × Nat × Nat) (tw : Nat × Nat) :
    Nat × Nat × Nat × Nat × Nat :=
  let (a, b, c, d, e) := st
  let (t, w) := tw
  (w32 (rotl 5 a + sha1F t b c d + e + sha1K t + w), a, rotl 30 b, c, d)

/-- Processes one 16-word block into the running hash state. -/
def sha1Block (h : Nat × Nat × Nat × Nat × Nat) (ws : List Nat) :
    Nat × Nat × Nat × Nat × Nat :=
  let (h0, h1, h2, h3, h4) := h
  let (a, b, c, d, e) :=
    ((List.range 80).zip (sha1ExtendN 64 ws)).foldl sha1Round (h0, h1, h2, h3, h4)
  (w32 (h0 + a), w32 (h1 + b), w32 (h2 + c), w32 (h3 + d), w32 (h4 + e))

/-- Folds all 16-word blocks; the fuel argument bounds the number of
blocks and is supplied as the word count, which always suffices. -/
def sha1Blocks : Nat → (Nat × Nat × Nat × Nat × Nat) → List Nat →
    Nat × Nat × Nat × Nat × Nat
  | 0, h, _ => h
  | _ + 1, h, [] => h
  | fuel + 1, h, ws => sha1Blocks fuel (sha1Block h (ws.take 16)) (ws.drop 16)

/-- The SHA-1 digest of a byte list, as 20 raw bytes.  Models the Sha1
type of the crypto crate used by index.rs: result bytes correspond to
digest.result, and encodeHex of them to digest.result_str. -/
def sha1 (m : List Nat) : List Nat :=
  let ws := chunkWords (sha1Pad m)
  let (h0, h1, h2, h3, h4) :=
    sha1Blocks ws.length (1732584193, 4023233417, 2562383102, 271733878, 3285377520) ws
  be32 h0 ++ be32 h1 ++ be32 h2 ++ be32 h3 ++ be32 h4

/-! ## Errors and console output -/

/-- Failure outcomes of the embedded code.  Constructors whose name
starts with panic model a Rust panic (process abort: panic macro,
assert macro, expect or unwrap on a bad value, out-of-range slice
index); the remaining constructors model io errors returned as the Err
variant of a Result. -/
inductive Err where
  /-- The io error built in verify_checksum when the trailing bytes do
  not reproduce the accumulated digest. -/
  | checksumMismatch
  /-- read_exact failing because fewer bytes remain than requested. -/
  | ioEof
  /-- The expect call on Checksum.read inside read_header. -/
  | panicHeaderRead
  /-- The panic for a signature other than DIRC (also covers the
  from_utf8 expect on those bytes). -/
  | panicBadSignature
  /-- The panic for a version field other than 2, carrying the value
  found. -/
  | panicBadVersion (v : Nat)
  /-- The expect on decode_hex of the oid inside to_bytes. -/
  | panicInvalidOid
  /-- The expect on decode_hex of the digest text inside
  finish_write. -/
  | panicInvalidSha1
  /-- The unwrap on entry.last() in read_entries when the entry buffer
  is empty. -/
  | panicEmptyEntry
  /-- An out-of-range fixed slice of the entry bytes in parse. -/
  | panicSliceRange
  /-- The assert in create_branch when no branch name is given. -/
  | panicNoBranchName
  /-- An out-of-bounds index into the argument vector. -/
  | panicIndexOutOfBounds
deriving DecidableEq

/-- One println call observed on the console; each constructor is one
print site of the source with the data it formats. -/
inductive ConsoleOut where
  /-- The range line printed for each field inside the parse loop. -/
  | printRange (lo hi : Nat)
  /-- The metadata_ints vector printed after each push in parse. -/
  | printInts (ints : List Nat)
  /-- The changes of the tree diff printed inside Branch.new. -/
  | printChanges
deriving DecidableEq

/-! ## Index entries (struct Entry of index.rs) -/

/-- The in-memory index entry; field types follow the Rust struct:
i64 fields as Int, u64 and u32 and u16 fields as Nat, String fields as
byte lists. -/
@[ext]
structure Entry where
  ctime : Int
  ctime_nsec : Int
  mtime : Int
  mtime_nsec : Int
  dev : Nat
  ino : Nat
  mode : Nat
  uid : Nat
  gid : Nat
  size : Nat
  oid : List Nat
  flags : Nat
  path : List Nat
deriving DecidableEq

/-- Zero-padding to the next multiple of 8: the closed form of the
while loop at the end of to_bytes that pushes zero bytes until the
length is a multiple of 8. -/
def padTo8 (l : List Nat) : List Nat :=
  l ++ List.replicate ((8 - l.length % 8) % 8) 0

/-- Entry.to_bytes of index.rs: ten 32-bit big-endian fields, the 20
raw oid bytes, the 16-bit flags, the path bytes, a zero terminator and
padding to a multiple of 8.  The expect on decode_hex of the oid is
the error case. -/
def Entry.to_bytes (e : Entry) : Except Err (List Nat) :=
  match decodeHex e.oid with
  | none => .error .panicInvalidOid
  | some raw =>
    .ok (padTo8 (be32 (i64AsU32 e.ctime) ++ be32 (i64AsU32 e.ctime_nsec) ++
      be32 (i64AsU32 e.mtime) ++ be32 (i64AsU32 e.mtime_nsec) ++
      be32 (w32 e.dev) ++ be32 (w32 e.ino) ++ be32 (w32 e.mode) ++
      be32 (w32 e.uid) ++ be32 (w32 e.gid) ++ be32 (w32 e.size) ++
      raw ++ be16 (e.flags % 65536) ++ e.path ++ [0]))

/-- Entry.parse of index.rs: the ten 32-bit metadata integers from the
fixed offsets, the oid as the hex text of bytes 40 to 60, the flags
from bytes 60 to 62, and the path as the bytes after offset 62 up to
the first zero.  The fixed slices panic when the buffer is shorter
than 62 bytes. -/
def Entry.parse (bytes : List Nat) : Except Err Entry :=
  if 62 ≤ bytes.length then
    let ints := (List.range 10).map (fun i => fromBe32 ((bytes.drop (4 * i)).take 4))
    .ok { ctime := (ints.getD 0 0 : Int)
          ctime_nsec := (ints.getD 1 0 : Int)
          mtime := (ints.getD 2 0 : Int)
          mtime_nsec := (ints.getD 3 0 : Int)
          dev := ints.getD 4 0
          ino := ints.getD 5 0
          mode := ints.getD 6 0
          uid := ints.getD 7 0
          gid := ints.getD 8 0
          size := ints.getD 9 0
          oid := encodeHex ((bytes.drop 40).take 20)
          flags := fromBe16 ((bytes.drop 60).take 2)
          path := (bytes.drop 62).takeWhile (fun b => b != 0) }
  else .error .panicSliceRange

/-- The console lines emitted by Entry.parse on its successful path:
two println calls per loop iteration, the second showing the
metadata_ints gathered so far. -/
def Entry.parseTrace (bytes : List Nat) : List ConsoleOut :=
  ((List.range 10).map (fun i =>
    [ConsoleOut.printRange (4 * i) (4 * i + 4),
     ConsoleOut.printInts ((List.range (i + 1)).map
       (fun j => fromBe32 ((bytes.drop (4 * j)).take 4)))])).flatten

/-- The entry produced by parsing the serialization of e: every 32-bit
field is the original value reduced modulo 2 ^ 32; oid, flags and path
survive unchanged (flags reduced modulo 2 ^ 16, the width of the
field). -/
def truncEntry (e : Entry) : Entry :=
  { ctime := e.ctime % 4294967296
    ctime_nsec := e.ctime_nsec % 4294967296
    mtime := e.mtime % 4294967296
    mtime_nsec := e.mtime_nsec % 4294967296
    dev := e.dev % 4294967296
    ino := e.ino % 4294967296
    mode := e.mode % 4294967296
    uid := e.uid % 4294967296
    gid := e.gid % 4294967296
    size := e.size % 4294967296
    oid := e.oid
    flags := e.flags % 65536
    path := e.path }

/-- All machine-width fields of the entry are already in range, so
that truncation is the identity. -/
def EntryFits (e : Entry) : Prop :=
  0 ≤ e.ctime ∧ e.ctime < 4294967296 ∧
  0 ≤ e.ctime_nsec ∧ e.ctime_nsec < 4294967296 ∧
  0 ≤ e.mtime ∧ e.mtime < 4294967296 ∧
  0 ≤ e.mtime_nsec ∧ e.mtime_nsec < 4294967296 ∧
  e.dev < 4294967296 ∧ e.ino < 4294967296 ∧ e.mode < 4294967296 ∧
  e.uid < 4294967296 ∧ e.gid < 4294967296 ∧ e.size < 4294967296 ∧
  e.flags < 65536

instance (e : Entry) : Decidable (EntryFits e) := by
  unfold EntryFits; infer_instance

/-! ## The entry table (BTreeMap of Index) -/

/-- The entry table: an association list kept strictly sorted by path,
the shallow embedding of the BTreeMap with String keys. -/
abbrev EntryMap := List (List Nat × Entry)

/-- Sorted insertion with replacement on an equal key: the behavior of
BTreeMap.insert as used by store_entry. -/
def insertSorted (m : EntryMap) (e : Entry) : EntryMap :=
  match m with
  | [] => [(e.path, e)]
  | (k, v) :: t =>
    if lexLt e.path k then (e.path, e) :: (k, v) :: t
    else if e.path = k then (e.path, e) :: t
    else (k, v) :: insertSorted t e

/-- Index.store_entry: inserts the entry keyed by its path. -/
def store_entry (m : EntryMap) (e : Entry) : EntryMap := insertSorted m e

/-- Index.add applied to a sequence of already-built entries: each add
builds an entry from its arguments and stores it. -/
def addAll (ops : List Entry) : EntryMap := ops.foldl store_entry []

/-! ## The reading side (struct Checksum and the load path of Index) -/

/-- The Checksum reader of index.rs: the open file with a read
position, and the byte stream fed so far to the Sha1 digest field.
Checksum.read never feeds the digest (the source calls read_exact
only), so digestInput stays empty along the load path. -/
structure CkState where
  file : List Nat
  pos : Nat
  digestInput : List Nat
deriving DecidableEq

/-- Checksum.read: read_exact of the requested size at the current
position; fails with an eof io error when fewer bytes remain.  The
digest is not updated, exactly as in the source. -/
def CkState.read (st : CkState) (size : Nat) : Except Err (List Nat × CkState) :=
  if st.pos + size ≤ st.file.length then
    .ok ((st.file.drop st.pos).take size, { st with pos := st.pos + size })
  else .error .ioEof

/-- Index.read_header: reads the 12 header bytes (the expect call on
failure is a panic), checks the DIRC signature and the version 2, each
by a panic, and returns the entry count. -/
def read_header (st : CkState) : Except Err (Nat × CkState) :=
  match st.read 12 with
  | .error _ => .error .panicHeaderRead
  | .ok (data, st1) =>
    let signature := data.take 4
    let version := fromBe32 ((data.drop 4).take 4)
    let count := fromBe32 (data.drop 8)
    if signature ≠ [68, 73, 82, 67] then .error .panicBadSignature
    else if version ≠ 2 then .error (.panicBadVersion version)
    else .ok (count, st1)

/-- The while loop of read_entries: as long as the last byte of the
entry buffer is not zero, read 8 more bytes and append them.  The
unwrap on last() panics on an empty buffer.  The fuel argument bounds
the iterations; read_entries passes one more than the file length,
which the loop can never exhaust because every iteration consumes 8
bytes of the file. -/
def extendEntry : Nat → CkState → List Nat → Except Err (List Nat × CkState)
  | 0, _, _ => .error .ioEof
  | fuel + 1, st, acc =>
    match acc.getLast? with
    | none => .error .panicEmptyEntry
    | some b =>
      if b = 0 then .ok (acc, st)
      else
        match st.read 8 with
        | .error e => .error e
        | .ok (more, st1) => extendEntry fuel st1 (acc ++ more)

/-- Index.read_entries: count times, read the 64-byte minimum block,
extend it to the entry boundary, parse it and store the entry. -/
def read_entries : CkState → EntryMap → Nat → Except Err (EntryMap × CkState)
  | st, m, 0 => .ok (m, st)
  | st, m, count + 1 =>
    match st.read 64 with
    | .error e => .error e
    | .ok (block, st1) =>
      match extendEntry (st1.file.length + 1) st1 block with
      | .error e => .error e
      | .ok (entryBytes, st2) =>
        match Entry.parse entryBytes with
        | .error e => .error e
        | .ok e => read_entries st2 (store_entry m e) count

/-- Checksum.verify_checksum: renders the accumulated digest as hex
text, reads the trailing 20 raw bytes, hex-encodes them, and fails
with the checksum io error when the two texts differ. -/
def verify_checksum (st : CkState) : Except Err (Unit × CkState) :=
  let hash := encodeHex (sha1 st.digestInput)
  match st.read 20 with
  | .error e => .error e
  | .ok (buf, st1) =>
    let sum := encodeHex buf
    if sum ≠ hash then .error .checksumMismatch
    else .ok ((), st1)

/-- Index.load: clears the table; with no index file on disk the
result is the empty table; otherwise reads the header, the entries and
the trailing checksum.  The argument is the optional content of the
index file, mirroring open_index_file. -/
def load (indexFile : Option (List Nat)) : Except Err EntryMap :=
  match indexFile with
  | none => .ok []
  | some f =>
    let st : CkState := { file := f, pos := 0, digestInput := [] }
    match read_header st with
    | .error e => .error e
    | .ok (count, st1) =>
      match read_entries st1 [] count with
      | .error e => .error e
      | .ok (m, st2) =>
        match verify_checksum st2 with
        | .error e => .error e
        | .ok _ => .ok m

/-! ## The writing side (begin_write, write, finish_write,
write_updates of Index) -/

/-- The writer state: the bytes passed to the lockfile so far and the
byte stream held by the hasher field of Index (empty after
begin_write).  Modelled from the spec for the lockfile part:
lockfile.rs is not under src/; per section 5 the lockfile stages all
written bytes in a temporary file which commit publishes atomically,
so the staged content is exactly the written byte sequence. -/
structure WState where
  out : List Nat
  hashIn : List Nat
deriving DecidableEq

/-- Index.write: passes the data to the lockfile.  The source then
calls input on self.hasher.expect(..), but hasher is an Option of the
Copy type Sha1 and Option.expect takes it by value, so input mutates a
discarded copy of the hasher: the hasher field of Index never
accumulates, and hashIn is left unchanged. -/
def indexWrite (st : WState) (data : List Nat) : WState :=
  { out := st.out ++ data, hashIn := st.hashIn }

/-- Index.finish_write: renders the digest of the hasher field as hex
text (another by-value copy of the never-fed hasher, so this is the
digest of hashIn, which stays empty), decodes it back to the 20 raw
bytes (the expect call is the panic case) and appends them; the
committed file content is the result. -/
def finish_write (st : WState) : Except Err (List Nat) :=
  match decodeHex (encodeHex (sha1 st.hashIn)) with
  | none => .error .panicInvalidSha1
  | some raw => .ok (st.out ++ raw)

/-- The entry loop of write_updates: serializes each entry of the map
in its iteration order and writes it. -/
def writeEntries : WState → EntryMap → Except Err WState
  | st, [] => .ok st
  | st, (_, e) :: t =>
    match e.to_bytes with
    | .error err => .error err
    | .ok bs => writeEntries (indexWrite st bs) t

/-- Index.write_updates: writes the DIRC header with version 2 and the
entry count, then every entry in map order, then the digest trailer;
returns the full committed file content.  Lock acquisition and the
atomic commit of the lockfile are outside src/ and modelled as the
successful publication of these bytes. -/
def write_updates (m : EntryMap) : Except Err (List Nat) :=
  let header := [68, 73, 82, 67] ++ be32 (w32 2) ++ be32 (w32 m.length)
  let st := indexWrite { out := [], hashIn := [] } header
  match writeEntries st m with
  | .error e => .error e
  | .ok st1 => finish_write st1

/-! ## The branch command (src/src/commands/branch.rs) -/

/-- One side effect of constructing or running the branch command. -/
inductive BranchEffect where
  /-- A call of TreeDiff.compare_oids with the two optional object
  ids. -/
  | compareOids (old new : Option String)
  /-- A println call. -/
  | print (line : ConsoleOut)
deriving DecidableEq

/-- Modelled from the spec for the tree diff part: the tree_diff
module is not under src/; Branch.new in branch.rs builds the
repository, then runs TreeDiff.compare_oids on two hard-coded object
ids and prints the resulting changes before returning the command
object.  The value is the effect trace of the constructor. -/
def branchNewEffects : List BranchEffect :=
  [BranchEffect.compareOids
     (some "a26dcc98f714b7dbcfc7cfd9acc93ce4a79a53b8")
     (some "2fc5973f8c246fd66e7ab65784ffa6b2d1e6f840"),
   BranchEffect.print ConsoleOut.printChanges]

/-- Branch.create_branch of branch.rs, restricted to its handling of
the argument vector: the assert demands more than 2 arguments, the
branch name is args[2], and the start point defaults to HEAD when
args.len() < 3 and is read from args[3] otherwise.  Returns the branch
name together with the start-point argument (none for the HEAD
default); indexing past the end of the vector is the panic case. -/
def createBranchArgs (args : List String) : Except Err (String × Option String) :=
  if args.length > 2 then
    if h2 : 2 < args.length then
      let branchName := args.get ⟨2, h2⟩
      if args.length < 3 then .ok (branchName, none)
      else if h3 : 3 < args.length then .ok (branchName, some (args.get ⟨3, h3⟩))
      else .error .panicIndexOutOfBounds
    else .error .panicIndexOutOfBounds
  else .error .panicNoBranchName

/-! ## Lemmas about the byte codecs -/

/-- A byte list whose characters are lowercase hex digits. -/
def IsLowerHex (s : List Nat) : Bool :=
  s.all (fun c => (48 ≤ c && c ≤ 57) || (97 ≤ c && c ≤ 102))

theorem hexDigitVal_hexDigitChar {n : Nat} (h : n < 16) :
    hexDigitVal (hexDigitChar n) = some n := by
  unfold hexDigitChar hexDigitVal
  by_cases h10 : n < 10
  · rw [if_pos h10, if_pos (by omega)]
    simp only [Option.some.injEq]
    omega
  · rw [if_neg h10, if_neg (by omega), if_pos (by omega)]
    simp only [Option.some.injEq]
    omega

theorem hexDigitChar_hexDigitVal {c v : Nat}
    (hc : ((48 ≤ c && c ≤ 57) || (97 ≤ c && c ≤ 102)) = true)
    (h : hexDigitVal c = some v) : hexDigitChar v = c := by
  unfold hexDigitVal at h
  unfold hexDigitChar
  simp only [Bool.or_eq_true, Bool.and_eq_true, decide_eq_true_eq] at hc
  rcases hc with ⟨h1, h2⟩ | ⟨h1, h2⟩
  · rw [if_pos (show 48 ≤ c ∧ c ≤ 57 by omega)] at h
    simp only [Option.some.injEq] at h
    rw [if_pos (show v < 10 by omega)]
    omega
  · rw [if_neg (show ¬ (48 ≤ c ∧ c ≤ 57) by omega),
      if_pos (show 97 ≤ c ∧ c ≤ 102 by omega)] at h
    simp only [Option.some.injEq] at h
    rw [if_neg (show ¬ v < 10 by omega)]
    omega

theorem hexDigitVal_lt {c v : Nat} (h : hexDigitVal c = some v) : v < 16 := by
  unfold hexDigitVal at h
  split at h
  · simp only [Option.some.injEq] at h
    omega
  · split at h
    · simp only [Option.some.injEq] at h
      omega
    · split at h
      · simp only [Option.some.injEq] at h
        omega
      · exact absurd h (by simp)

theorem decodeHex_encodeHex (l : List Nat) (h : ∀ b ∈ l, b < 256) :
    decodeHex (encodeHex l) = some l := by
  induction l with
  | nil => rfl
  | cons b t ih =>
    have hb : b < 256 := h b (List.mem_cons_self b t)
    have ht : ∀ x ∈ t, x < 256 := fun x hx => h x (List.mem_cons_of_mem b hx)
    show decodeHex (hexDigitChar (b / 16) :: hexDigitChar (b % 16) :: encodeHex t) = _
    unfold decodeHex
    rw [hexDigitVal_hexDigitChar (by omega), hexDigitVal_hexDigitChar (by omega), ih ht]
    simp
    omega

/-- Full round trip for a lowercase hex string of even length 2 * n:
decoding succeeds, produces n bytes, and re-encoding restores the
string. -/
theorem hexRoundTrip : ∀ (n : Nat) (s : List Nat), IsLowerHex s = true →
    s.length = 2 * n →
    ∃ raw, decodeHex s = some raw ∧ raw.length = n ∧ encodeHex raw = s
  | 0, [], _, _ => ⟨[], rfl, rfl, rfl⟩
  | n + 1, c1 :: c2 :: rest, hhex, hlen => by
    simp only [IsLowerHex, List.all_cons, Bool.and_eq_true] at hhex
    obtain ⟨h1, h2, hrest⟩ := hhex
    obtain ⟨v1, hv1⟩ : ∃ v, hexDigitVal c1 = some v := by
      unfold hexDigitVal
      simp only [Bool.or_eq_true, Bool.and_eq_true, decide_eq_true_eq] at h1
      rcases h1 with ⟨a, b⟩ | ⟨a, b⟩
      · exact ⟨c1 - 48, by rw [if_pos (by omega)]⟩
      · exact ⟨c1 - 87, by rw [if_neg (by omega), if_pos (by omega)]⟩
    obtain ⟨v2, hv2⟩ : ∃ v, hexDigitVal c2 = some v := by
      unfold hexDigitVal
      simp only [Bool.or_eq_true, Bool.and_eq_true, decide_eq_true_eq] at h2
      rcases h2 with ⟨a, b⟩ | ⟨a, b⟩
      · exact ⟨c2 - 48, by rw [if_pos (by omega)]⟩
      · exact ⟨c2 - 87, by rw [if_neg (by omega), if_pos (by omega)]⟩
    obtain ⟨raw, hdec, hrawlen, henc⟩ :=
      hexRoundTrip n rest (by simpa [IsLowerHex] using hrest)
        (by simp only [List.length_cons] at hlen; omega)
    refine ⟨(16 * v1 + v2) :: raw, ?_, by simpa using hrawlen, ?_⟩
    · unfold decodeHex
      rw [hv1, hv2, hdec]
    · have hv1lt := hexDigitVal_lt hv1
      have hv2lt := hexDigitVal_lt hv2
      show hexDigitChar ((16 * v1 + v2) / 16) :: hexDigitChar ((16 * v1 + v2) % 16) ::
        encodeHex raw = _
      have e1 : (16 * v1 + v2) / 16 = v1 := by omega
      have e2 : (16 * v1 + v2) % 16 = v2 := by omega
      rw [e1, e2, henc, hexDigitChar_hexDigitVal h1 hv1,
        hexDigitChar_hexDigitVal h2 hv2]
  | n + 1, [], _, hlen => by simp at hlen
  | n + 1, [c], hhex, hlen => by simp at hlen; omega

theorem fromBe32_be32 (n : Nat) : fromBe32 (be32 n) = n % 4294967296 := by
  show ((((0 * 256 + n / 16777216 % 256) * 256 + n / 65536 % 256) * 256 +
    n / 256 % 256) * 256 + n % 256) = n % 4294967296
  omega

theorem fromBe16_be16 (n : Nat) : fromBe16 (be16 n) = n % 65536 := by
  show (0 * 256 + n / 256 % 256) * 256 + n % 256 = n % 65536
  omega

theorem be32_length (n : Nat) : (be32 n).length = 4 := rfl

theorem be16_length (n : Nat) : (be16 n).length = 2 := rfl

theorem takeWhile_append_zero (P Z : List Nat) (h : ∀ b ∈ P, b ≠ 0) :
    (P ++ 0 :: Z).takeWhile (fun b => b != 0) = P := by
  induction P with
  | nil => simp [List.takeWhile_cons]
  | cons a t ih =>
    have ha : a ≠ 0 := h a (List.mem_cons_self a t)
    simp only [List.cons_append, List.takeWhile_cons]
    simp [ha, ih (fun b hb => h b (List.mem_cons_of_mem a hb))]

/-! ## Lemmas about the lexicographic key order -/

theorem lexLt_irrefl (l : List Nat) : lexLt l l = false := by
  induction l with
  | nil => rfl
  | cons a t ih => simp [lexLt, ih]

theorem lexLt_trans : ∀ {a b c : List Nat},
    lexLt a b = true → lexLt b c = true → lexLt a c = true
  | [], _ :: _, _ :: _, _, _ => rfl
  | [], [], c, h1, _ => by simp [lexLt] at h1
  | [], _ :: _, [], _, h2 => by simp [lexLt] at h2
  | _ :: _, [], _, h1, _ => by simp [lexLt] at h1
  | _ :: _, _ :: _, [], _, h2 => by simp [lexLt] at h2
  | x :: xs, y :: ys, z :: zs, h1, h2 => by
    simp only [lexLt] at h1 h2 ⊢
    by_cases hxy : x < y
    · by_cases hyz : y < z
      · rw [if_pos (by omega)]
      · simp only [if_neg hyz] at h2
        by_cases hzy : z < y
        · simp [hzy] at h2
        · rw [if_pos (by omega)]
    · simp only [if_neg hxy] at h1
      by_cases hyx : y < x
      · simp [hyx] at h1
      · simp only [if_neg hyx] at h1
        by_cases hyz : y < z
        · rw [if_pos (by omega)]
        · simp only [if_neg hyz] at h2
          by_cases hzy : z < y
          · simp [hzy] at h2
          · simp only [if_neg hzy] at h2
            have hxz : ¬ x < z := by omega
            have hzx : ¬ z < x := by omega
            rw [if_neg hxz, if_neg hzx]
            exact lexLt_trans h1 h2

theorem lexLt_total : ∀ {a b : List Nat}, a ≠ b →
    lexLt a b = true ∨ lexLt b a = true
  | [], [], h => absurd rfl h
  | [], _ :: _, _ => Or.inl rfl
  | _ :: _, [], _ => Or.inr rfl
  | x :: xs, y :: ys, h => by
    simp only [lexLt]
    by_cases hxy : x < y
    · exact Or.inl (by rw [if_pos hxy])
    · by_cases hyx : y < x
      · exact Or.inr (by rw [if_pos hyx])
      · have hxey : x = y := by omega
        have hne : xs ≠ ys := by
          intro hc; exact h (by rw [hxey, hc])
        rcases lexLt_total hne with ht | ht
        · exact Or.inl (by rw [if_neg hxy, if_neg hyx]; exact ht)
        · exact Or.inr (by rw [if_neg hyx, if_neg hxy]; exact ht)

theorem lexLt_asymm {a b : List Nat} (h : lexLt a b = true) : lexLt b a = false := by
  by_contra hc
  have hba : lexLt b a = true := by
    cases hval : lexLt b a
    · exact absurd hval hc
    · rfl
  have := lexLt_trans h hba
  rw [lexLt_irrefl] at this
  exact Bool.noConfusion this

/-! ## Lemmas about the sorted entry table -/

/-- The strict key order between two table cells. -/
def keyLt (a b : List Nat × Entry) : Prop := lexLt a.1 b.1 = true

theorem mem_insertSorted {m : EntryMap} {e : Entry} {x : List Nat × Entry}
    (h : x ∈ insertSorted m e) : x = (e.path, e) ∨ x ∈ m := by
  induction m with
  | nil =>
    simp only [insertSorted, List.mem_singleton] at h
    exact Or.inl h
  | cons kv t ih =>
    obtain ⟨k, v⟩ := kv
    simp only [insertSorted] at h
    by_cases h1 : lexLt e.path k = true
    · rw [if_pos h1] at h
      rcases List.mem_cons.1 h with h | h
      · exact Or.inl h
      · exact Or.inr h
    · rw [if_neg h1] at h
      by_cases h2 : e.path = k
      · rw [if_pos h2] at h
        rcases List.mem_cons.1 h with h | h
        · exact Or.inl h
        · exact Or.inr (List.mem_cons_of_mem _ h)
      · rw [if_neg h2] at h
        rcases List.mem_cons.1 h with h | h
        · exact Or.inr (h ▸ List.mem_cons_self _ _)
        · rcases ih h with h3 | h3
          · exact Or.inl h3
          · exact Or.inr (List.mem_cons_of_mem _ h3)

theorem lexLt_of_not {a b : List Nat} (hne : a ≠ b) (h : lexLt a b = false) :
    lexLt b a = true := by
  rcases lexLt_total hne with ht | ht
  · rw [ht] at h
    exact Bool.noConfusion h
  · exact ht

theorem insertSorted_pairwise {m : EntryMap} {e : Entry}
    (h : m.Pairwise keyLt) : (insertSorted m e).Pairwise keyLt := by
  induction m with
  | nil =>
    simp [insertSorted, keyLt]
  | cons kv t ih =>
    obtain ⟨k, v⟩ := kv
    rw [List.pairwise_cons] at h
    obtain ⟨hhead, htail⟩ := h
    simp only [insertSorted]
    by_cases h1 : lexLt e.path k = true
    · rw [if_pos h1, List.pairwise_cons]
      refine ⟨?_, List.pairwise_cons.2 ⟨hhead, htail⟩⟩
      intro x hx
      rcases List.mem_cons.1 hx with hx | hx
      · rw [hx]
        exact h1
      · exact lexLt_trans h1 (hhead x hx)
    · rw [if_neg h1]
      by_cases h2 : e.path = k
      · rw [if_pos h2, List.pairwise_cons]
        refine ⟨fun x hx => ?_, htail⟩
        show lexLt e.path x.1 = true
        rw [h2]
        exact hhead x hx
      · rw [if_neg h2, List.pairwise_cons]
        refine ⟨fun x hx => ?_, ih htail⟩
        rcases mem_insertSorted hx with hx1 | hx1
        · show lexLt k x.1 = true
          rw [hx1]
          exact lexLt_of_not h2 (by simpa using h1)
        · exact hhead x hx1

theorem insertSorted_comm {e1 e2 : Entry} (hne : e1.path ≠ e2.path) :
    ∀ m : EntryMap, insertSorted (insertSorted m e1) e2 =
      insertSorted (insertSorted m e2) e1
  | [] => by
    by_cases h21 : lexLt e2.path e1.path = true
    · have h12 : lexLt e1.path e2.path = false := lexLt_asymm h21
      simp [insertSorted, h21, h12, hne, Ne.symm hne]
    · have h12 : lexLt e1.path e2.path = true :=
        lexLt_of_not (fun hc => hne hc.symm) (by simpa using h21)
      have h21f : lexLt e2.path e1.path = false := lexLt_asymm h12
      simp [insertSorted, h12, h21f, hne, Ne.symm hne]
  | (k, v) :: t => by
    by_cases ha1 : lexLt e1.path k = true
    · by_cases ha2 : lexLt e2.path k = true
      · by_cases h21 : lexLt e2.path e1.path = true
        · have h12 : lexLt e1.path e2.path = false := lexLt_asymm h21
          simp [insertSorted, ha1, ha2, h21, h12, hne, Ne.symm hne]
        · have h12 : lexLt e1.path e2.path = true :=
            lexLt_of_not (fun hc => hne hc.symm) (by simpa using h21)
          have h21f : lexLt e2.path e1.path = false := lexLt_asymm h12
          simp [insertSorted, ha1, ha2, h12, h21f, hne, Ne.symm hne]
      · by_cases hb2 : e2.path = k
        · have hk1f : lexLt k e1.path = false := lexLt_asymm ha1
          have hkne : k ≠ e1.path := by
            intro hc
            apply hne
            rw [← hc, hb2]
          simp [insertSorted, hb2, ha1, hk1f, hkne, lexLt_irrefl]
        · have ha2f : lexLt e2.path k = false := by simpa using ha2
          have hk2 : lexLt k e2.path = true := lexLt_of_not hb2 ha2f
          have h12 : lexLt e1.path e2.path = true := lexLt_trans ha1 hk2
          have h21f : lexLt e2.path e1.path = false := lexLt_asymm h12
          simp [insertSorted, ha1, ha2f, hb2, h12, h21f, hne, Ne.symm hne]
    · have ha1f : lexLt e1.path k = false := by simpa using ha1
      by_cases hb1 : e1.path = k
      · by_cases ha2 : lexLt e2.path k = true
        · have hk2f : lexLt k e2.path = false := lexLt_asymm ha2
          have hkne2 : k ≠ e2.path := by
            intro hc
            apply hne
            rw [hb1]
            exact hc
          simp [insertSorted, hb1, ha2, hk2f, hkne2, lexLt_irrefl]
        · by_cases hb2 : e2.path = k
          · exact absurd (hb1.trans hb2.symm) hne
          · have ha2f : lexLt e2.path k = false := by simpa using ha2
            simp [insertSorted, hb1, ha2f, hb2, lexLt_irrefl]
      · by_cases ha2 : lexLt e2.path k = true
        · have hk1 : lexLt k e1.path = true := lexLt_of_not hb1 ha1f
          have h21 : lexLt e2.path e1.path = true := lexLt_trans ha2 hk1
          have h12f : lexLt e1.path e2.path = false := lexLt_asymm h21
          simp [insertSorted, ha1f, hb1, ha2, h21, h12f, hne, Ne.symm hne]
        · have ha2f : lexLt e2.path k = false := by simpa using ha2
          by_cases hb2 : e2.path = k
          · simp [insertSorted, hb2, ha1f, hb1, lexLt_irrefl]
          · simp only [insertSorted, ha1f, ha2f, Bool.false_eq_true, if_false,
              if_neg hb1, if_neg hb2]
            rw [insertSorted_comm hne t]

/-! ## Lemmas about addAll and write_updates -/

theorem foldl_store_pairwise (ops : List Entry) :
    ∀ m : EntryMap, m.Pairwise keyLt → (ops.foldl store_entry m).Pairwise keyLt := by
  induction ops with
  | nil => exact fun m h => h
  | cons e t ih =>
    intro m h
    exact ih (store_entry m e) (insertSorted_pairwise h)

theorem addAll_pairwise (ops : List Entry) : (addAll ops).Pairwise keyLt :=
  foldl_store_pairwise ops [] (List.Pairwise.nil)

theorem addAll_perm {ops1 ops2 : List Entry}
    (hnd : (ops1.map Entry.path).Nodup) (hp : ops1.Perm ops2) :
    addAll ops1 = addAll ops2 := by
  refine hp.foldl_eq' ?_ []
  intro x hx y hy z
  by_cases hxy : x = y
  · rw [hxy]
  · have hpp : x.path ≠ y.path := fun hc =>
      hxy (List.inj_on_of_nodup_map hnd hx hy hc)
    exact insertSorted_comm hpp z

theorem addAll_keys_nodup (ops : List Entry) :
    ((addAll ops).map Prod.fst).Nodup := by
  have h := addAll_pairwise ops
  have h2 : ((addAll ops).map Prod.fst).Pairwise (fun a b => lexLt a b = true) :=
    List.pairwise_map.2 (h.imp (fun hab => hab))
  show ((addAll ops).map Prod.fst).Pairwise (fun a b => a ≠ b)
  refine h2.imp ?_
  intro a b hab hc
  rw [hc, lexLt_irrefl] at hab
  exact Bool.noConfusion hab

/-! ## The entry round trip (to_bytes then parse) -/

theorem except_bind_ok {ε α β} (a : α) (f : α → Except ε β) :
    (Except.ok a >>= f : Except ε β) = f a := rfl

theorem int_field_roundtrip (x : Int) :
    ((fromBe32 (be32 (i64AsU32 x)) : Nat) : Int) = x % 4294967296 := by
  rw [fromBe32_be32]
  unfold i64AsU32
  have h0 : (0 : Int) ≤ x % 4294967296 := Int.emod_nonneg x (by norm_num)
  have h1 : x % 4294967296 < 4294967296 := Int.emod_lt_of_pos x (by norm_num)
  have h2 : (x % 4294967296).toNat < 4294967296 := by omega
  rw [Nat.mod_eq_of_lt h2]
  omega

theorem nat_field_roundtrip (x : Nat) :
    fromBe32 (be32 (w32 x)) = x % 4294967296 := by
  rw [fromBe32_be32]
  unfold w32
  omega

theorem drop2_be16 (v : Nat) (X : List Nat) : (be16 v ++ X).drop 2 = X := rfl

theorem take2_be16 (v : Nat) (X : List Nat) : (be16 v ++ X).take 2 = be16 v := rfl

/-- Parsing a serialized entry payload: the buffer is the ten 32-bit
blocks, the 20 raw oid bytes, the two flag bytes, the path, the zero
terminator and arbitrary trailing bytes; parse recovers each region. -/
theorem parse_payload (a0 a1 a2 a3 a4 a5 a6 a7 a8 a9 v : Nat)
    (raw P Z : List Nat) (hraw : raw.length = 20) (hP : ∀ b ∈ P, b ≠ 0) :
    Entry.parse (be32 a0 ++ (be32 a1 ++ (be32 a2 ++ (be32 a3 ++ (be32 a4 ++
      (be32 a5 ++ (be32 a6 ++ (be32 a7 ++ (be32 a8 ++ (be32 a9 ++
      (raw ++ (be16 v ++ (P ++ (0 :: Z)))))))))))))) =
    Except.ok { ctime := (fromBe32 (be32 a0) : Nat)
                ctime_nsec := (fromBe32 (be32 a1) : Nat)
                mtime := (fromBe32 (be32 a2) : Nat)
                mtime_nsec := (fromBe32 (be32 a3) : Nat)
                dev := fromBe32 (be32 a4)
                ino := fromBe32 (be32 a5)
                mode := fromBe32 (be32 a6)
                uid := fromBe32 (be32 a7)
                gid := fromBe32 (be32 a8)
                size := fromBe32 (be32 a9)
                oid := encodeHex raw
                flags := fromBe16 (be16 v)
                path := P } := by
  have hints : (List.range 10).map (fun i => fromBe32 (((be32 a0 ++ (be32 a1 ++ (be32 a2 ++ (be32 a3 ++ (be32 a4 ++
      (be32 a5 ++ (be32 a6 ++ (be32 a7 ++ (be32 a8 ++ (be32 a9 ++
      (raw ++ (be16 v ++ (P ++ (0 :: Z)))))))))))))).drop (4 * i)).take 4)) =
      [fromBe32 (be32 a0), fromBe32 (be32 a1), fromBe32 (be32 a2), fromBe32 (be32 a3),
       fromBe32 (be32 a4), fromBe32 (be32 a5), fromBe32 (be32 a6), fromBe32 (be32 a7),
       fromBe32 (be32 a8), fromBe32 (be32 a9)] := by
    rw [show List.range 10 = [0, 1, 2, 3, 4, 5, 6, 7, 8, 9] from rfl]
    simp only [List.map_cons, List.map_nil]
    norm_num
    exact ⟨rfl, rfl, rfl, rfl, rfl, rfl, rfl, rfl, rfl, rfl⟩
  have h40 : (be32 a0 ++ (be32 a1 ++ (be32 a2 ++ (be32 a3 ++ (be32 a4 ++
      (be32 a5 ++ (be32 a6 ++ (be32 a7 ++ (be32 a8 ++ (be32 a9 ++
      (raw ++ (be16 v ++ (P ++ (0 :: Z)))))))))))))).drop 40 = raw ++ (be16 v ++ (P ++ (0 :: Z))) := rfl
  have hlen : 62 ≤ (be32 a0 ++ (be32 a1 ++ (be32 a2 ++ (be32 a3 ++ (be32 a4 ++
      (be32 a5 ++ (be32 a6 ++ (be32 a7 ++ (be32 a8 ++ (be32 a9 ++
      (raw ++ (be16 v ++ (P ++ (0 :: Z)))))))))))))).length := by
    simp [be32, be16, hraw]
    omega
  have h60 : (be32 a0 ++ (be32 a1 ++ (be32 a2 ++ (be32 a3 ++ (be32 a4 ++
      (be32 a5 ++ (be32 a6 ++ (be32 a7 ++ (be32 a8 ++ (be32 a9 ++
      (raw ++ (be16 v ++ (P ++ (0 :: Z)))))))))))))).drop 60 = be16 v ++ (P ++ (0 :: Z)) := by
    have h : ((be32 a0 ++ (be32 a1 ++ (be32 a2 ++ (be32 a3 ++ (be32 a4 ++
      (be32 a5 ++ (be32 a6 ++ (be32 a7 ++ (be32 a8 ++ (be32 a9 ++
      (raw ++ (be16 v ++ (P ++ (0 :: Z)))))))))))))).drop 40).drop 20 = (be32 a0 ++ (be32 a1 ++ (be32 a2 ++ (be32 a3 ++ (be32 a4 ++
      (be32 a5 ++ (be32 a6 ++ (be32 a7 ++ (be32 a8 ++ (be32 a9 ++
      (raw ++ (be16 v ++ (P ++ (0 :: Z)))))))))))))).drop 60 :=
      List.drop_drop 20 40 _
    rw [← h, h40, List.drop_left' hraw]
  have h62 : (be32 a0 ++ (be32 a1 ++ (be32 a2 ++ (be32 a3 ++ (be32 a4 ++
      (be32 a5 ++ (be32 a6 ++ (be32 a7 ++ (be32 a8 ++ (be32 a9 ++
      (raw ++ (be16 v ++ (P ++ (0 :: Z)))))))))))))).drop 62 = P ++ (0 :: Z) := by
    have h : ((be32 a0 ++ (be32 a1 ++ (be32 a2 ++ (be32 a3 ++ (be32 a4 ++
      (be32 a5 ++ (be32 a6 ++ (be32 a7 ++ (be32 a8 ++ (be32 a9 ++
      (raw ++ (be16 v ++ (P ++ (0 :: Z)))))))))))))).drop 60).drop 2 = (be32 a0 ++ (be32 a1 ++ (be32 a2 ++ (be32 a3 ++ (be32 a4 ++
      (be32 a5 ++ (be32 a6 ++ (be32 a7 ++ (be32 a8 ++ (be32 a9 ++
      (raw ++ (be16 v ++ (P ++ (0 :: Z)))))))))))))).drop 62 :=
      List.drop_drop 2 60 _
    rw [← h, h60, drop2_be16]
  have hoid : encodeHex (((be32 a0 ++ (be32 a1 ++ (be32 a2 ++ (be32 a3 ++ (be32 a4 ++
      (be32 a5 ++ (be32 a6 ++ (be32 a7 ++ (be32 a8 ++ (be32 a9 ++
      (raw ++ (be16 v ++ (P ++ (0 :: Z)))))))))))))).drop 40).take 20) = encodeHex raw := by
    rw [h40, List.take_left' hraw]
  have hflags : fromBe16 (((be32 a0 ++ (be32 a1 ++ (be32 a2 ++ (be32 a3 ++ (be32 a4 ++
      (be32 a5 ++ (be32 a6 ++ (be32 a7 ++ (be32 a8 ++ (be32 a9 ++
      (raw ++ (be16 v ++ (P ++ (0 :: Z)))))))))))))).drop 60).take 2) = fromBe16 (be16 v) := by
    rw [h60, take2_be16]
  have hpath : ((be32 a0 ++ (be32 a1 ++ (be32 a2 ++ (be32 a3 ++ (be32 a4 ++
      (be32 a5 ++ (be32 a6 ++ (be32 a7 ++ (be32 a8 ++ (be32 a9 ++
      (raw ++ (be16 v ++ (P ++ (0 :: Z)))))))))))))).drop 62).takeWhile (fun b => b != 0) = P := by
    rw [h62]
    exact takeWhile_append_zero P Z hP
  simp only [Entry.parse]
  rw [if_pos hlen]
  refine congrArg Except.ok ?_
  simp only [hints]
  simp only [Entry.mk.injEq]
  refine ⟨?_, ?_, ?_, ?_, ?_, ?_, ?_, ?_, ?_, ?_, hoid, hflags, hpath⟩ <;>
    simp [List.getD]

/-- Serialize-then-parse on a well-formed entry: the result is the
entry with every machine-width field truncated to its width. -/
theorem to_bytes_parse (e : Entry) (h1 : IsLowerHex e.oid = true)
    (h2 : e.oid.length = 40) (hpath : ∀ b ∈ e.path, b ≠ 0) :
    (e.to_bytes >>= Entry.parse) = Except.ok (truncEntry e) := by
  obtain ⟨raw, hdec, hrawlen, henc⟩ := hexRoundTrip 20 e.oid h1 (by rw [h2])
  simp only [Entry.to_bytes, hdec]
  rw [except_bind_ok]
  simp only [padTo8, List.append_assoc, List.singleton_append]
  rw [parse_payload _ _ _ _ _ _ _ _ _ _ _ raw e.path _ hrawlen hpath]
  refine congrArg Except.ok ?_
  simp only [truncEntry, Entry.mk.injEq]
  refine ⟨int_field_roundtrip e.ctime, int_field_roundtrip e.ctime_nsec,
    int_field_roundtrip e.mtime, int_field_roundtrip e.mtime_nsec,
    nat_field_roundtrip e.dev, nat_field_roundtrip e.ino,
    nat_field_roundtrip e.mode, nat_field_roundtrip e.uid,
    nat_field_roundtrip e.gid, nat_field_roundtrip e.size, henc, ?_, trivial⟩
  rw [fromBe16_be16]
  omega

theorem truncEntry_eq_of_fits {e : Entry} (hf : EntryFits e) : truncEntry e = e := by
  obtain ⟨f1, f2, f3, f4, f5, f6, f7, f8, f9, f10, f11, f12, f13, f14, f15⟩ := hf
  ext <;> simp only [truncEntry] <;> omega

/-! ## List slicing helpers for the round-trip proof -/

theorem take_append_le {α : Type _} :
    ∀ (l1 l2 : List α) (n : Nat), n ≤ l1.length → (l1 ++ l2).take n = l1.take n
  | _, _, 0, _ => by simp
  | [], _, n + 1, h => by simp at h
  | a :: t, l2, n + 1, h => by
    simp only [List.cons_append, List.take_succ_cons]
    rw [take_append_le t l2 n (by simpa using h)]

theorem drop_append_le {α : Type _} :
    ∀ (l1 l2 : List α) (n : Nat), n ≤ l1.length → (l1 ++ l2).drop n = l1.drop n ++ l2
  | _, _, 0, _ => by simp
  | [], _, n + 1, h => by simp at h
  | a :: t, l2, n + 1, h => by
    simp only [List.cons_append, List.drop_succ_cons]
    exact drop_append_le t l2 n (by simpa using h)

theorem take_add_drop {α : Type _} :
    ∀ (l : List α) (m n : Nat), l.take (m + n) = l.take m ++ (l.drop m).take n
  | l, 0, n => by simp
  | [], m + 1, n => by simp
  | a :: t, m + 1, n => by
    rw [show m + 1 + n = (m + n) + 1 by omega]
    simp only [List.take_succ_cons, List.drop_succ_cons, List.cons_append]
    rw [take_add_drop t m n]

theorem getLast?_take {α : Type _} {l : List α} {m : Nat}
    (h1 : 1 ≤ m) (h2 : m ≤ l.length) : (l.take m).getLast? = l[m - 1]? := by
  rw [List.getLast?_eq_getElem?]
  have hlen : (l.take m).length = m := by
    rw [List.length_take]
    omega
  rw [hlen, List.getElem?_take_of_lt (by omega)]

/-! ## Byte bounds of the digest -/

theorem be32_bytes_lt (n : Nat) : ∀ b ∈ be32 n, b < 256 := by
  intro b hb
  simp only [be32, List.mem_cons, List.not_mem_nil, or_false] at hb
  rcases hb with h | h | h | h <;> omega

theorem sha1_length (msg : List Nat) : (sha1 msg).length = 20 := by
  simp [sha1, be32]

theorem sha1_bytes_lt (msg : List Nat) : ∀ b ∈ sha1 msg, b < 256 := by
  intro b hb
  simp only [sha1, List.mem_append] at hb
  rcases hb with ((((h | h) | h) | h) | h) <;> exact be32_bytes_lt _ b h

theorem decode_encode_sha1 (msg : List Nat) :
    decodeHex (encodeHex (sha1 msg)) = some (sha1 msg) :=
  decodeHex_encodeHex _ (sha1_bytes_lt msg)

theorem finish_write_eq (st : WState) :
    finish_write st = .ok (st.out ++ sha1 st.hashIn) := by
  unfold finish_write
  rw [decode_encode_sha1]

/-! ## The byte shape of a serialized entry -/

/-- The facts about a serialized entry byte block with path length L
that drive the read loop of read_entries: the length is a multiple of
8, at least 64, and the minimal multiple of 8 of 63 + L; every byte
from the terminator position 62 + L on is zero; every path byte
(positions 62 to 61 + L) is nonzero. -/
def EntryShape (E : List Nat) (L : Nat) : Prop :=
  E.length % 8 = 0 ∧ 64 ≤ E.length ∧ 63 + L ≤ E.length ∧ E.length < 63 + L + 8 ∧
  (∀ i, 62 + L ≤ i → i < E.length → E[i]? = some 0) ∧
  (∀ i b, 62 ≤ i → i < 62 + L → E[i]? = some b → b ≠ 0)

theorem entryShape_of (E P : List Nat) (z : Nat)
    (hdrop : E.drop 62 = P ++ (0 :: List.replicate z 0))
    (hz : z < 8) (hmod : E.length % 8 = 0)
    (hp : ∀ b ∈ P, b ≠ 0) :
    EntryShape E P.length := by
  have hdlen : E.length - 62 = P.length + 1 + z := by
    have := congrArg List.length hdrop
    simp at this
    omega
  have hge : 63 ≤ E.length := by
    rcases Nat.lt_or_ge E.length 63 with h | h
    · omega
    · exact h
  have hlen : E.length = 63 + P.length + z := by omega
  refine ⟨hmod, by omega, by omega, by omega, ?_, ?_⟩
  · intro i h1 h2
    have hi : i = 62 + (i - 62) := by omega
    rw [hi, ← List.getElem?_drop, hdrop]
    have h62 : P.length ≤ i - 62 := by omega
    rw [List.getElem?_append_right h62]
    rcases Nat.eq_or_lt_of_le h62 with he | hlt
    · rw [← he, Nat.sub_self]
      simp
    · have : i - 62 - P.length = (i - 62 - P.length - 1) + 1 := by omega
      rw [this]
      simp only [List.getElem?_cons_succ]
      rw [List.getElem?_replicate]
      rw [if_pos (by omega)]
  · intro i b h1 h2 hib
    have hi : i = 62 + (i - 62) := by omega
    rw [hi, ← List.getElem?_drop, hdrop] at hib
    rw [List.getElem?_append_left (by omega)] at hib
    exact hp b (List.getElem?_mem hib)

/-- The while loop of read_entries consumes exactly one serialized
entry: starting from a prefix of m bytes of a shaped entry block E
(at least the 64-byte minimum block, a multiple of 8), with the file
continuing with the rest of E and then R, the loop returns the whole
block E and advances the position to its end. -/
theorem extendEntry_spec :
    ∀ (fuel : Nat) (st : CkState) (m : Nat) (E R : List Nat) (L : Nat),
      EntryShape E L →
      64 ≤ m → m % 8 = 0 → m ≤ E.length →
      st.file.drop st.pos = E.drop m ++ R →
      E.length - m < fuel →
      extendEntry fuel st (E.take m) =
        Except.ok (E, { st with pos := st.pos + (E.length - m) })
  | 0, _, m, E, _, _, _, _, _, _, _, hfuel => absurd hfuel (by omega)
  | fuel + 1, st, m, E, R, L, hshape, hm64, hm8, hmle, hdrop, hfuel => by
    obtain ⟨hmod, h64, hterm, hmax, hzero, hnonzero⟩ := hshape
    have hm1 : m - 1 < E.length := by omega
    have hlast : (E.take m).getLast? = E[m - 1]? :=
      getLast?_take (by omega) hmle
    obtain ⟨b, hb⟩ : ∃ b, (E.take m).getLast? = some b :=
      ⟨_, by rw [hlast]; exact List.getElem?_eq_getElem hm1⟩
    have hbval : E[m - 1]? = some b := by rw [← hlast, hb]
    simp only [extendEntry, hb]
    rcases Nat.eq_or_lt_of_le hmle with heq | hlt
    · -- the prefix is the whole block: the last byte is the
      -- terminator or a padding byte, hence zero, so the loop stops
      have hz : E[m - 1]? = some 0 := hzero (m - 1) (by omega) hm1
      have hb0 : b = 0 := by
        have hsome : some b = some 0 := by rw [← hbval, hz]
        exact Option.some.inj hsome
      rw [if_pos hb0, heq, List.take_length]
      simp
    · -- strictly inside the block: the last byte is a path byte,
      -- hence nonzero, so the loop reads 8 more bytes and recurses
      have hm8le : m + 8 ≤ E.length := by omega
      have hb0 : b ≠ 0 :=
        hnonzero (m - 1) b (by omega) (by omega) hbval
      rw [if_neg hb0]
      have hdroplen : st.file.length - st.pos = (E.length - m) + R.length := by
        have := congrArg List.length hdrop
        simpa using this
      have hreadok : st.read 8 =
          Except.ok ((E.drop m).take 8, { st with pos := st.pos + 8 }) := by
        unfold CkState.read
        rw [if_pos (by omega)]
        rw [hdrop, take_append_le _ _ 8 (by rw [List.length_drop]; omega)]
      simp only [hreadok]
      have hacc : E.take m ++ (E.drop m).take 8 = E.take (m + 8) :=
        (take_add_drop E m 8).symm
      rw [hacc]
      have hdrop8 : ({ st with pos := st.pos + 8 } : CkState).file.drop
          ({ st with pos := st.pos + 8 } : CkState).pos = E.drop (m + 8) ++ R := by
        show st.file.drop (st.pos + 8) = _
        rw [List.drop_add st.pos 8 st.file, hdrop,
          drop_append_le _ _ 8 (by rw [List.length_drop]; omega),
          ← List.drop_add m 8 E]
      rw [extendEntry_spec fuel _ (m + 8) E R L
        ⟨hmod, h64, hterm, hmax, hzero, hnonzero⟩
        (by omega) (by omega) hm8le hdrop8 (by omega)]
      have hpos : st.pos + 8 + (E.length - (m + 8)) = st.pos + (E.length - m) := by
        omega
      simp [hpos]

/-- Reading count entries from a file whose remainder is the
concatenation of shaped, parseable entry blocks followed by R stores
the parsed entries in order and advances the position past all the
blocks. -/
theorem read_entries_spec :
    ∀ (ms : EntryMap) (bss : List (List Nat)) (st : CkState) (acc : EntryMap)
      (R : List Nat),
      List.Forall₂ (fun (kv : List Nat × Entry) (bs : List Nat) =>
        EntryShape bs kv.2.path.length ∧
        Entry.parse bs = Except.ok (truncEntry kv.2)) ms bss →
      st.file.drop st.pos = bss.flatten ++ R →
      read_entries st acc ms.length =
        Except.ok (ms.foldl (fun m kv => store_entry m (truncEntry kv.2)) acc,
          { st with pos := st.pos + bss.flatten.length })
  | [], bss, st, acc, R, hf, hdrop => by
    cases hf
    simp [read_entries]
  | kv :: mt, _, st, acc, R, List.Forall₂.cons ⟨hsh, hpar⟩ hft, hdrop => by
    rename_i bs bt
    obtain ⟨hmod, h64, hterm, hmax, hzero, hnonzero⟩ := hsh
    have hdrop2 : st.file.drop st.pos = bs ++ (bt.flatten ++ R) := by
      rw [hdrop]
      simp [List.append_assoc]
    have hdlen : st.file.length - st.pos = bs.length + (bt.flatten.length + R.length) := by
      have := congrArg List.length hdrop2
      simpa using this
    simp only [List.length_cons, read_entries]
    have hread64 : st.read 64 =
        Except.ok (bs.take 64, { st with pos := st.pos + 64 }) := by
      unfold CkState.read
      rw [if_pos (by omega)]
      rw [hdrop2, take_append_le _ _ 64 (by omega)]
    simp only [hread64]
    have hdrop64 : ({ st with pos := st.pos + 64 } : CkState).file.drop
        ({ st with pos := st.pos + 64 } : CkState).pos =
        bs.drop 64 ++ (bt.flatten ++ R) := by
      show st.file.drop (st.pos + 64) = _
      rw [List.drop_add st.pos 64 st.file, hdrop2,
        drop_append_le _ _ 64 (by omega)]
    have hext := extendEntry_spec
      (({ st with pos := st.pos + 64 } : CkState).file.length + 1)
      { st with pos := st.pos + 64 } 64 bs (bt.flatten ++ R) kv.2.path.length
      ⟨hmod, h64, hterm, hmax, hzero, hnonzero⟩
      (by omega) (by omega) (by omega) hdrop64 (by show bs.length - 64 < st.file.length + 1; omega)
    simp only [hext, hpar]
    have harith : st.pos + 64 + (bs.length - 64) = st.pos + bs.length := by omega
    simp only [harith]
    have hdropnext : st.file.drop (st.pos + bs.length) = bt.flatten ++ R := by
      rw [List.drop_add st.pos bs.length st.file, hdrop2, List.drop_left]
    rw [read_entries_spec mt bt ⟨st.file, st.pos + bs.length, st.digestInput⟩
      (store_entry acc (truncEntry kv.2)) R hft hdropnext]
    simp only [List.foldl_cons]
    have harith2 : st.pos + bs.length + bt.flatten.length =
        st.pos + ((bs :: bt).flatten).length := by
      simp only [List.flatten_cons, List.length_append]
      omega
    simp only [harith2, store_entry]

/-- The padded serialized payload of an entry has the shape the read
loop expects: length a multiple of 8, path bytes nonzero, everything
from the terminator on zero. -/
theorem chain_shape (a0 a1 a2 a3 a4 a5 a6 a7 a8 a9 v : Nat)
    (raw P : List Nat) (hraw : raw.length = 20) (hp : ∀ b ∈ P, b ≠ 0) :
    EntryShape (padTo8 (be32 a0 ++ (be32 a1 ++ (be32 a2 ++ (be32 a3 ++ (be32 a4 ++
      (be32 a5 ++ (be32 a6 ++ (be32 a7 ++ (be32 a8 ++ (be32 a9 ++
      (raw ++ (be16 v ++ (P ++ [0])))))))))))))) P.length := by
  have hlen : (be32 a0 ++ (be32 a1 ++ (be32 a2 ++ (be32 a3 ++ (be32 a4 ++
      (be32 a5 ++ (be32 a6 ++ (be32 a7 ++ (be32 a8 ++ (be32 a9 ++
      (raw ++ (be16 v ++ (P ++ [0]))))))))))))).length = 63 + P.length := by
    simp [be32, be16, hraw]
    omega
  have h40 : (be32 a0 ++ (be32 a1 ++ (be32 a2 ++ (be32 a3 ++ (be32 a4 ++
      (be32 a5 ++ (be32 a6 ++ (be32 a7 ++ (be32 a8 ++ (be32 a9 ++
      (raw ++ (be16 v ++ (P ++ [0]))))))))))))).drop 40 = raw ++ (be16 v ++ (P ++ [0])) := rfl
  have h60 : (be32 a0 ++ (be32 a1 ++ (be32 a2 ++ (be32 a3 ++ (be32 a4 ++
      (be32 a5 ++ (be32 a6 ++ (be32 a7 ++ (be32 a8 ++ (be32 a9 ++
      (raw ++ (be16 v ++ (P ++ [0]))))))))))))).drop 60 = be16 v ++ (P ++ [0]) := by
    have h : ((be32 a0 ++ (be32 a1 ++ (be32 a2 ++ (be32 a3 ++ (be32 a4 ++
      (be32 a5 ++ (be32 a6 ++ (be32 a7 ++ (be32 a8 ++ (be32 a9 ++
      (raw ++ (be16 v ++ (P ++ [0]))))))))))))).drop 40).drop 20 = (be32 a0 ++ (be32 a1 ++ (be32 a2 ++ (be32 a3 ++ (be32 a4 ++
      (be32 a5 ++ (be32 a6 ++ (be32 a7 ++ (be32 a8 ++ (be32 a9 ++
      (raw ++ (be16 v ++ (P ++ [0]))))))))))))).drop 60 :=
      List.drop_drop 20 40 _
    rw [← h, h40, List.drop_left' hraw]
  have h62 : (be32 a0 ++ (be32 a1 ++ (be32 a2 ++ (be32 a3 ++ (be32 a4 ++
      (be32 a5 ++ (be32 a6 ++ (be32 a7 ++ (be32 a8 ++ (be32 a9 ++
      (raw ++ (be16 v ++ (P ++ [0]))))))))))))).drop 62 = P ++ [0] := by
    have h : ((be32 a0 ++ (be32 a1 ++ (be32 a2 ++ (be32 a3 ++ (be32 a4 ++
      (be32 a5 ++ (be32 a6 ++ (be32 a7 ++ (be32 a8 ++ (be32 a9 ++
      (raw ++ (be16 v ++ (P ++ [0]))))))))))))).drop 60).drop 2 = (be32 a0 ++ (be32 a1 ++ (be32 a2 ++ (be32 a3 ++ (be32 a4 ++
      (be32 a5 ++ (be32 a6 ++ (be32 a7 ++ (be32 a8 ++ (be32 a9 ++
      (raw ++ (be16 v ++ (P ++ [0]))))))))))))).drop 62 :=
      List.drop_drop 2 60 _
    rw [← h, h60, drop2_be16]
  refine entryShape_of _ P ((8 - (be32 a0 ++ (be32 a1 ++ (be32 a2 ++ (be32 a3 ++ (be32 a4 ++
      (be32 a5 ++ (be32 a6 ++ (be32 a7 ++ (be32 a8 ++ (be32 a9 ++
      (raw ++ (be16 v ++ (P ++ [0]))))))))))))).length % 8) % 8) ?_ (by omega) ?_ hp
  · unfold padTo8
    rw [drop_append_le _ _ 62 (by omega), h62, List.append_assoc]
    rfl
  · unfold padTo8
    rw [List.length_append, List.length_replicate]
    omega

/-- A well-formed entry serializes successfully, and the block has the
shape the read loop expects and parses back to the truncated entry. -/
theorem to_bytes_ok (e : Entry) (h1 : IsLowerHex e.oid = true)
    (h2 : e.oid.length = 40) (h3 : ∀ b ∈ e.path, b ≠ 0) :
    ∃ bs, e.to_bytes = Except.ok bs ∧ EntryShape bs e.path.length ∧
      Entry.parse bs = Except.ok (truncEntry e) := by
  obtain ⟨raw, hdec, hrawlen, henc⟩ := hexRoundTrip 20 e.oid h1 (by rw [h2])
  have hok : e.to_bytes = Except.ok (padTo8 (be32 (i64AsU32 e.ctime) ++ be32 (i64AsU32 e.ctime_nsec) ++
      be32 (i64AsU32 e.mtime) ++ be32 (i64AsU32 e.mtime_nsec) ++
      be32 (w32 e.dev) ++ be32 (w32 e.ino) ++ be32 (w32 e.mode) ++
      be32 (w32 e.uid) ++ be32 (w32 e.gid) ++ be32 (w32 e.size) ++
      raw ++ be16 (e.flags % 65536) ++ e.path ++ [0])) := by
    simp only [Entry.to_bytes, hdec]
  refine ⟨_, hok, ?_, ?_⟩
  · -- the block shape
    simp only [List.append_assoc]
    exact chain_shape _ _ _ _ _ _ _ _ _ _ _ raw e.path hrawlen h3
  · -- the parse of the block
    have hp := to_bytes_parse e h1 h2 h3
    rw [hok, except_bind_ok] at hp
    exact hp

/-- Every pair in a foldl of store_entry comes from the accumulator or
is an inserted entry keyed by its own path. -/
theorem mem_foldl_store :
    ∀ (ops : List Entry) (m : EntryMap) (x : List Nat × Entry),
      x ∈ ops.foldl store_entry m → x ∈ m ∨ (x.1 = x.2.path ∧ x.2 ∈ ops)
  | [], _, _, h => Or.inl h
  | e :: t, m, x, h => by
    rcases mem_foldl_store t (store_entry m e) x h with h1 | h1
    · rcases mem_insertSorted h1 with h2 | h2
      · refine Or.inr ⟨?_, ?_⟩
        · rw [h2]
        · rw [h2]
          exact List.mem_cons_self _ _
      · exact Or.inl h2
    · exact Or.inr ⟨h1.1, List.mem_cons_of_mem _ h1.2⟩

/-- Every pair of the table built by a sequence of adds is keyed by
the path of its entry, and its entry is one of the added entries. -/
theorem addAll_mem {ops : List Entry} {x : List Nat × Entry}
    (h : x ∈ addAll ops) : x.1 = x.2.path ∧ x.2 ∈ ops := by
  rcases mem_foldl_store ops [] x h with h1 | h1
  · exact absurd h1 (List.not_mem_nil x)
  · exact h1

/-- Inserting an entry whose key is above every key of a sorted map
appends it at the end. -/
theorem insertSorted_append_greater {e : Entry} :
    ∀ {m : EntryMap}, (∀ x ∈ m, lexLt x.1 e.path = true) →
      insertSorted m e = m ++ [(e.path, e)]
  | [], _ => rfl
  | (k, v) :: t, h => by
    have hk : lexLt k e.path = true := h (k, v) (List.mem_cons_self _ _)
    have h1 : lexLt e.path k = false := lexLt_asymm hk
    have h2 : e.path ≠ k := by
      intro hc
      rw [hc, lexLt_irrefl] at hk
      exact Bool.noConfusion hk
    simp only [insertSorted, h1, Bool.false_eq_true, if_false, if_neg h2]
    rw [insertSorted_append_greater (fun x hx => h x (List.mem_cons_of_mem _ hx))]
    rfl

/-- Folding store_entry of the truncated entries of an ascending map
whose keys are the entry paths, over an accumulator entirely below the
map, appends the truncated pairs in order. -/
theorem foldl_store_trunc :
    ∀ (m acc : EntryMap), m.Pairwise keyLt →
      (∀ kv ∈ m, kv.1 = kv.2.path) →
      (∀ a ∈ acc, ∀ b ∈ m, lexLt a.1 b.1 = true) →
      m.foldl (fun acc2 kv => store_entry acc2 (truncEntry kv.2)) acc =
        acc ++ m.map (fun kv => (kv.1, truncEntry kv.2))
  | [], acc, _, _, _ => by simp
  | (k, e) :: t, acc, hpw, hkeys, hacc => by
    rw [List.pairwise_cons] at hpw
    obtain ⟨hhead, htail⟩ := hpw
    have hk : k = e.path := hkeys (k, e) (List.mem_cons_self _ _)
    have hstep : store_entry acc (truncEntry e) = acc ++ [(e.path, truncEntry e)] := by
      show insertSorted acc (truncEntry e) = _
      rw [insertSorted_append_greater (fun x hx => by
        show lexLt x.1 (truncEntry e).path = true
        have hx2 := hacc x hx (k, e) (List.mem_cons_self _ _)
        rw [hk] at hx2
        exact hx2)]
      rfl
    have hacct : ∀ a ∈ acc ++ [(e.path, truncEntry e)], ∀ b ∈ t, lexLt a.1 b.1 = true := by
      intro a ha b hb
      rcases List.mem_append.1 ha with ha1 | ha1
      · exact hacc a ha1 b (List.mem_cons_of_mem _ hb)
      · have ha2 : a = (e.path, truncEntry e) := by simpa using ha1
        rw [ha2]
        show lexLt e.path b.1 = true
        rw [← hk]
        exact hhead b hb
    simp only [List.foldl_cons]
    rw [hstep, foldl_store_trunc t (acc ++ [(e.path, truncEntry e)]) htail
      (fun kv hkv => hkeys kv (List.mem_cons_of_mem _ hkv)) hacct]
    simp [hk]

/-- Every entry of a table whose entries are well formed serializes to
a block sequence satisfying the read-side facts. -/
theorem exists_blocks :
    ∀ (m : EntryMap),
      (∀ kv ∈ m, IsLowerHex kv.2.oid = true ∧ kv.2.oid.length = 40 ∧
        ∀ b ∈ kv.2.path, b ≠ 0) →
      ∃ bss : List (List Nat),
        List.Forall₂ (fun (kv : List Nat × Entry) (bs : List Nat) =>
          kv.2.to_bytes = Except.ok bs ∧ EntryShape bs kv.2.path.length ∧
          Entry.parse bs = Except.ok (truncEntry kv.2)) m bss
  | [], _ => ⟨[], List.Forall₂.nil⟩
  | kv :: t, h => by
    obtain ⟨h1, h2, h3⟩ := h kv (List.mem_cons_self _ _)
    obtain ⟨bs, hb1, hb2, hb3⟩ := to_bytes_ok kv.2 h1 h2 h3
    obtain ⟨bss, hbss⟩ :=
      exists_blocks t (fun kv2 hkv2 => h kv2 (List.mem_cons_of_mem _ hkv2))
    exact ⟨bs :: bss, List.Forall₂.cons ⟨hb1, hb2, hb3⟩ hbss⟩

/-- The write loop appends the serialized blocks of the map in order
and leaves the hasher stream untouched. -/
theorem writeEntries_spec :
    ∀ (ms : EntryMap) (bss : List (List Nat)) (st : WState),
      List.Forall₂ (fun (kv : List Nat × Entry) (bs : List Nat) =>
        kv.2.to_bytes = Except.ok bs) ms bss →
      writeEntries st ms =
        Except.ok { out := st.out ++ bss.flatten, hashIn := st.hashIn }
  | [], _, st, hf => by
    cases hf
    simp [writeEntries]
  | kv :: mt, _, st, List.Forall₂.cons hh hft => by
    rename_i bs bt
    have hh2 : kv.2.to_bytes = Except.ok bs := hh
    obtain ⟨k, e⟩ := kv
    simp only [writeEntries, hh2]
    rw [writeEntries_spec mt bt (indexWrite st bs) hft]
    simp [indexWrite, List.append_assoc]

/-- write_updates on a table whose entries all serialize: the
committed file is the header, the blocks in map order, and the raw
SHA-1 of the empty stream (the hasher is never fed). -/
theorem write_updates_eq (m : EntryMap) (bss : List (List Nat))
    (hf : List.Forall₂ (fun (kv : List Nat × Entry) (bs : List Nat) =>
      kv.2.to_bytes = Except.ok bs) m bss) :
    write_updates m = Except.ok ([68, 73, 82, 67] ++ (be32 (w32 2) ++
      (be32 (w32 m.length) ++ (bss.flatten ++ sha1 [])))) := by
  simp only [write_updates]
  simp only [writeEntries_spec m bss _ hf]
  rw [finish_write_eq]
  simp [indexWrite, List.append_assoc]

/-- read_header on a file starting with the DIRC signature and two
32-bit fields: the version and count are read back modulo 2 ^ 32 and
the position advances past the 12 header bytes. -/
theorem read_header_spec (v c : Nat) (rest : List Nat) :
    read_header { file := [68, 73, 82, 67] ++ (be32 v ++ (be32 c ++ rest)), pos := 0, digestInput := [] } =
      (if v % 4294967296 ≠ 2 then
        Except.error (Err.panicBadVersion (v % 4294967296))
      else
        Except.ok (c % 4294967296,
          { file := [68, 73, 82, 67] ++ (be32 v ++ (be32 c ++ rest)), pos := 12, digestInput := [] })) := by
  have hlen : (0 : Nat) + 12 ≤ ([68, 73, 82, 67] ++ (be32 v ++ (be32 c ++ rest)) : List Nat).length := by
    simp [be32]
  have hread : CkState.read { file := [68, 73, 82, 67] ++ (be32 v ++ (be32 c ++ rest)), pos := 0, digestInput := [] } 12 =
      Except.ok (([68, 73, 82, 67] ++ (be32 v ++ (be32 c ++ rest)) : List Nat).take 12,
        { file := [68, 73, 82, 67] ++ (be32 v ++ (be32 c ++ rest)), pos := 12, digestInput := [] }) := by
    unfold CkState.read
    rw [if_pos hlen]
    rfl
  simp only [read_header, hread]
  rw [show (([68, 73, 82, 67] ++ (be32 v ++ (be32 c ++ rest)) : List Nat).take 12).take 4 = [68, 73, 82, 67] from rfl,
    show ((([68, 73, 82, 67] ++ (be32 v ++ (be32 c ++ rest)) : List Nat).take 12).drop 4).take 4 = be32 v from rfl,
    show (([68, 73, 82, 67] ++ (be32 v ++ (be32 c ++ rest)) : List Nat).take 12).drop 8 = be32 c from rfl,
    fromBe32_be32, fromBe32_be32]
  rw [if_neg (by simp)]

/-- load accepts any file produced by write_updates: the header is
read back, each block parses to the truncated entry, and the trailing
digest is the SHA-1 of the empty stream, which is exactly what
verify_checksum compares against because read never feeds the
digest. -/
theorem load_of_write (m : EntryMap) (bss : List (List Nat))
    (hcount : m.length < 4294967296)
    (hf : List.Forall₂ (fun (kv : List Nat × Entry) (bs : List Nat) =>
      EntryShape bs kv.2.path.length ∧
      Entry.parse bs = Except.ok (truncEntry kv.2)) m bss) :
    load (some ([68, 73, 82, 67] ++ (be32 (w32 2) ++ (be32 (w32 m.length) ++ (bss.flatten ++ sha1 []))))) =
      Except.ok (m.foldl (fun acc kv => store_entry acc (truncEntry kv.2)) []) := by
  have hhdr : read_header { file := [68, 73, 82, 67] ++ (be32 (w32 2) ++ (be32 (w32 m.length) ++ (bss.flatten ++ sha1 []))), pos := 0, digestInput := [] } =
      Except.ok (m.length, { file := [68, 73, 82, 67] ++ (be32 (w32 2) ++ (be32 (w32 m.length) ++ (bss.flatten ++ sha1 []))), pos := 12, digestInput := [] }) := by
    rw [read_header_spec, if_neg (by decide)]
    have hc : w32 m.length % 4294967296 = m.length := by
      unfold w32
      omega
    rw [hc]
  have hdrop12 : ([68, 73, 82, 67] ++ (be32 (w32 2) ++ (be32 (w32 m.length) ++ (bss.flatten ++ sha1 []))) : List Nat).drop 12 = bss.flatten ++ sha1 [] := rfl
  have hre := read_entries_spec m bss { file := [68, 73, 82, 67] ++ (be32 (w32 2) ++ (be32 (w32 m.length) ++ (bss.flatten ++ sha1 []))), pos := 12, digestInput := [] }
    [] (sha1 []) hf hdrop12
  have hlenF : ([68, 73, 82, 67] ++ (be32 (w32 2) ++ (be32 (w32 m.length) ++ (bss.flatten ++ sha1 []))) : List Nat).length = 12 + bss.flatten.length + 20 := by
    simp [be32, sha1_length]
    omega
  have hdropL : ([68, 73, 82, 67] ++ (be32 (w32 2) ++ (be32 (w32 m.length) ++ (bss.flatten ++ sha1 []))) : List Nat).drop (12 + bss.flatten.length) = sha1 [] := by
    rw [← List.drop_drop, hdrop12, List.drop_left]
  have htake : (sha1 ([] : List Nat)).take 20 = sha1 [] := by
    conv_lhs => rw [show (20 : Nat) = (sha1 ([] : List Nat)).length from (sha1_length []).symm]
    exact List.take_length _
  have hread20 : CkState.read { file := [68, 73, 82, 67] ++ (be32 (w32 2) ++ (be32 (w32 m.length) ++ (bss.flatten ++ sha1 []))), pos := 12 + bss.flatten.length, digestInput := [] } 20 =
      Except.ok (sha1 [], { file := [68, 73, 82, 67] ++ (be32 (w32 2) ++ (be32 (w32 m.length) ++ (bss.flatten ++ sha1 []))), pos := 12 + bss.flatten.length + 20, digestInput := [] }) := by
    show (if 12 + bss.flatten.length + 20 ≤ ([68, 73, 82, 67] ++ (be32 (w32 2) ++ (be32 (w32 m.length) ++ (bss.flatten ++ sha1 []))) : List Nat).length then
        Except.ok ((([68, 73, 82, 67] ++ (be32 (w32 2) ++ (be32 (w32 m.length) ++ (bss.flatten ++ sha1 []))) : List Nat).drop (12 + bss.flatten.length)).take 20,
          ({ file := [68, 73, 82, 67] ++ (be32 (w32 2) ++ (be32 (w32 m.length) ++ (bss.flatten ++ sha1 []))), pos := 12 + bss.flatten.length + 20, digestInput := [] } : CkState))
      else Except.error Err.ioEof) =
      Except.ok (sha1 [], ({ file := [68, 73, 82, 67] ++ (be32 (w32 2) ++ (be32 (w32 m.length) ++ (bss.flatten ++ sha1 []))), pos := 12 + bss.flatten.length + 20, digestInput := [] } : CkState))
    rw [if_pos (by omega), hdropL, htake]
  have hverify : verify_checksum { file := [68, 73, 82, 67] ++ (be32 (w32 2) ++ (be32 (w32 m.length) ++ (bss.flatten ++ sha1 []))), pos := 12 + bss.flatten.length, digestInput := [] } =
      Except.ok ((), { file := [68, 73, 82, 67] ++ (be32 (w32 2) ++ (be32 (w32 m.length) ++ (bss.flatten ++ sha1 []))), pos := 12 + bss.flatten.length + 20, digestInput := [] }) := by
    simp only [verify_checksum, hread20]
    rw [if_neg (by simp)]
  simp only [load, hhdr, hre, hverify]

/-! ## Sample entries used by the witnesses -/

/-- A sample entry with path a.txt and a valid lowercase oid. -/
def sampleA : Entry :=
  { ctime := 100, ctime_nsec := 200, mtime := 300, mtime_nsec := 400,
    dev := 1, ino := 2, mode := 33188, uid := 1000, gid := 1000, size := 42,
    oid := encodeHex (List.range 20), flags := 5, path := [97, 46, 116, 120, 116] }

/-- A sample entry with path b.rs, distinct from sampleA. -/
def sampleB : Entry :=
  { ctime := 1, ctime_nsec := 2, mtime := 3, mtime_nsec := 4, dev := 5, ino := 6,
    mode := 33261, uid := 7, gid := 8, size := 9,
    oid := encodeHex ((List.range 20).map (fun i => i + 30)), flags := 4,
    path := [98, 46, 114, 115] }

/-- The same path as sampleA with different metadata. -/
def sampleA2 : Entry := { sampleA with size := 77, mtime := 999 }

/-- The entry of sampleA with a size of 2 to the power 32, which does
not fit the 32-bit on-disk field. -/
def bigEntry : Entry := { sampleA with size := 4294967296 }

/-- The 12-byte header of an index file with zero entries. -/
def emptyIndexHeader : List Nat := [68, 73, 82, 67] ++ be32 2 ++ be32 0

/-! ## The claims -/

/-- C1 counterexample: one add of an entry whose size field is 2 to
the power 32 refutes the claim as stated: the loaded table is not the
in-memory table (first conjunct); it is the table with the size field
truncated to 32 bits (second conjunct). -/
theorem c1_roundtrip_counterexample :
    (write_updates (addAll [bigEntry]) >>= fun bs => load (some bs)) ≠
      Except.ok (addAll [bigEntry]) ∧
    (write_updates (addAll [bigEntry]) >>= fun bs => load (some bs)) =
      Except.ok [(bigEntry.path, truncEntry bigEntry)] := by decide

/-- C1: the amended round trip: for any sequence of adds of
well-formed entries (40-character lowercase hex oid, no zero byte in
the path) with fewer than 2 to the power 32 table entries,
write_updates then load succeeds and returns the in-memory table with
every machine-width field truncated to its 32-bit on-disk width; when
every field fits 32 bits the loaded table equals the in-memory table
exactly, which covers table sizes 0, 1 and N greater than 1. -/
theorem c1_roundtrip_truncation (ops : List Entry)
    (hwf : ∀ e ∈ ops, IsLowerHex e.oid = true ∧ e.oid.length = 40 ∧
      ∀ b ∈ e.path, b ≠ 0)
    (hcount : (addAll ops).length < 4294967296) :
    (write_updates (addAll ops) >>= fun bs => load (some bs)) =
      Except.ok ((addAll ops).map (fun kv => (kv.1, truncEntry kv.2))) ∧
    ((∀ e ∈ ops, EntryFits e) →
      (addAll ops).map (fun kv => (kv.1, truncEntry kv.2)) = addAll ops) := by
  have hmem : ∀ kv ∈ addAll ops, kv.1 = kv.2.path ∧ kv.2 ∈ ops :=
    fun kv h => addAll_mem h
  have hwf2 : ∀ kv ∈ addAll ops, IsLowerHex kv.2.oid = true ∧
      kv.2.oid.length = 40 ∧ ∀ b ∈ kv.2.path, b ≠ 0 :=
    fun kv h => hwf kv.2 (hmem kv h).2
  obtain ⟨bss, hbss⟩ := exists_blocks (addAll ops) hwf2
  have hw := write_updates_eq (addAll ops) bss (hbss.imp (fun _ _ h => h.1))
  have hl := load_of_write (addAll ops) bss hcount
    (hbss.imp (fun _ _ h => ⟨h.2.1, h.2.2⟩))
  constructor
  · simp only [hw, except_bind_ok]
    rw [hl]
    refine congrArg Except.ok ?_
    rw [foldl_store_trunc (addAll ops) [] (addAll_pairwise ops)
      (fun kv h => (hmem kv h).1) (fun a ha => absurd ha (List.not_mem_nil a))]
    simp
  · intro hfit
    have hcong : ∀ kv ∈ addAll ops, (kv.1, truncEntry kv.2) = id kv := by
      intro kv h
      rw [truncEntry_eq_of_fits (hfit kv.2 (hmem kv h).2)]
      rfl
    rw [List.map_congr_left hcong, List.map_id]

/-- Witness for C1 at two concrete entries added in sequence. -/
theorem c1_roundtrip_truncation_witness :
    ((∀ e ∈ [sampleA, sampleB], IsLowerHex e.oid = true ∧ e.oid.length = 40 ∧
        ∀ b ∈ e.path, b ≠ 0) ∧
      (addAll [sampleA, sampleB]).length < 4294967296) ∧
    ((write_updates (addAll [sampleA, sampleB]) >>= fun bs => load (some bs)) =
        Except.ok ((addAll [sampleA, sampleB]).map
          (fun kv => (kv.1, truncEntry kv.2))) ∧
      ((∀ e ∈ [sampleA, sampleB], EntryFits e) →
        (addAll [sampleA, sampleB]).map (fun kv => (kv.1, truncEntry kv.2)) =
          addAll [sampleA, sampleB])) :=
  ⟨⟨by decide, by decide⟩,
   c1_roundtrip_truncation [sampleA, sampleB] (by decide) (by decide)⟩

/-- C2: the trailing checksum that write_updates appends is not the
digest computed over the bytes written before it: for the empty table
the file is the header followed by the raw 20-byte SHA-1 of the empty
stream (first conjunct), which differs from the digest of the header
(second conjunct), because the input call inside Index.write mutates a
discarded copy of the Copy hasher.  Verification reads exactly the
trailing 20 raw bytes and accepts the file (third conjunct): the
encodings agree, but both sides hold the digest of nothing. -/
theorem c2_trailer_encoding :
    write_updates [] = Except.ok (emptyIndexHeader ++ sha1 []) ∧
    sha1 [] ≠ sha1 emptyIndexHeader ∧
    load (some (emptyIndexHeader ++ sha1 [])) = Except.ok [] := by decide

/-- C3: a file whose trailing 20 bytes differ from the digest of the
bytes read before them (second conjunct) is nevertheless accepted by
load with the full entry table (first conjunct), because the digest
compared against is that of the empty stream. -/
theorem c3_mismatch_accepted :
    load (some (emptyIndexHeader ++ sha1 [])) = Except.ok [] ∧
    sha1 [] ≠ sha1 emptyIndexHeader := by decide

/-- C4: a header with version 3 makes load abort through the panic in
read_header, modelled by the panicBadVersion error constructor, rather
than returning an UnsupportedVersion error value. -/
theorem c4_bad_version_panics :
    load (some ([68, 73, 82, 67] ++ be32 3 ++ be32 0)) =
      Except.error (Err.panicBadVersion 3) := by decide

/-- C5: serialization is deterministic: two add sequences that are
permutations of each other (with pairwise distinct paths) produce the
same table and hence byte-identical write_updates output, and the
table iterated by write_updates is strictly sorted by path. -/
theorem c5_deterministic_serialization (ops1 ops2 : List Entry)
    (hnd : (ops1.map Entry.path).Nodup) (hp : ops1.Perm ops2) :
    write_updates (addAll ops1) = write_updates (addAll ops2) ∧
    (addAll ops1).Pairwise keyLt :=
  ⟨congrArg write_updates (addAll_perm hnd hp), addAll_pairwise ops1⟩

/-- Witness for C5 at two concrete entries inserted in both orders. -/
theorem c5_deterministic_serialization_witness :
    ([sampleA, sampleB].map Entry.path).Nodup ∧
    [sampleA, sampleB].Perm [sampleB, sampleA] ∧
    (write_updates (addAll [sampleA, sampleB]) =
       write_updates (addAll [sampleB, sampleA]) ∧
     (addAll [sampleA, sampleB]).Pairwise keyLt) :=
  ⟨by decide, by decide,
   c5_deterministic_serialization [sampleA, sampleB] [sampleB, sampleA]
     (by decide) (by decide)⟩

/-- C6: with no index file on disk, load succeeds with the empty entry
table. -/
theorem c6_load_missing_file_empty : load none = Except.ok [] := rfl

/-- C7: adding twice under one path leaves exactly the one entry with
the second call values, and after any sequence of adds the table keys
are pairwise distinct. -/
theorem c7_add_overwrites (e1 e2 : Entry) (ops : List Entry)
    (h : e1.path = e2.path) :
    addAll [e1, e2] = [(e2.path, e2)] ∧
    ((addAll ops).map Prod.fst).Nodup := by
  constructor
  · show store_entry (store_entry [] e1) e2 = [(e2.path, e2)]
    simp [store_entry, insertSorted, ← h, lexLt_irrefl]
  · exact addAll_keys_nodup ops

/-- Witness for C7 at two concrete entries sharing a path. -/
theorem c7_add_overwrites_witness :
    sampleA.path = sampleA2.path ∧
    (addAll [sampleA, sampleA2] = [(sampleA2.path, sampleA2)] ∧
     ((addAll [sampleA, sampleB, sampleA2]).map Prod.fst).Nodup) :=
  ⟨by decide,
   c7_add_overwrites sampleA sampleA2 [sampleA, sampleB, sampleA2] (by decide)⟩

/-- C8: the silence claim fails on the code: Entry.parse prints twenty
console lines while parsing a 64-byte entry, and constructing the
branch command runs a tree diff on two hard-coded object ids and
prints its changes. -/
theorem c8_not_silent :
    Entry.parseTrace (List.replicate 64 0) ≠ [] ∧ branchNewEffects ≠ [] := by
  decide

/-- C9: for an argument vector of length exactly 3 the start-point
resolution of create_branch indexes args[3], which is out of bounds,
so the call panics instead of defaulting to HEAD. -/
theorem c9_three_args_panics (a b c : String) :
    createBranchArgs [a, b, c] = Except.error Err.panicIndexOutOfBounds := rfl

/-- C10: serializing then parsing an entry reduces each of the ten
32-bit metadata fields to the original value modulo 2 ^ 32 (the parsed
entry is exactly the truncation of the original), and when every
machine-width field already fits its width the truncation is the
identity, so such entries round-trip exactly. -/
theorem c10_metadata_roundtrip (e : Entry)
    (h1 : IsLowerHex e.oid = true) (h2 : e.oid.length = 40)
    (h3 : ∀ b ∈ e.path, b ≠ 0) :
    (e.to_bytes >>= Entry.parse) = Except.ok (truncEntry e) ∧
    (EntryFits e → truncEntry e = e) :=
  ⟨to_bytes_parse e h1 h2 h3, truncEntry_eq_of_fits⟩

/-- Witness for C10 at a concrete entry. -/
theorem c10_metadata_roundtrip_witness :
    IsLowerHex sampleA.oid = true ∧ sampleA.oid.length = 40 ∧
    (∀ b ∈ sampleA.path, b ≠ 0) ∧
    ((sampleA.to_bytes >>= Entry.parse) = Except.ok (truncEntry sampleA) ∧
     (EntryFits sampleA → truncEntry sampleA = sampleA)) :=
  ⟨by decide, by decide, by decide,
   c10_metadata_roundtrip sampleA (by decide) (by decide) (by decide)⟩

end Rug
